import Mathlib

/-!
Shallow embedding of the batching engine in `pkg/batch/memory.go`
(`MemoryBatchQueue`, `partitionQueue`) and of the relevant parts of
`pkg/batch/main.go` (the `QueueTask` capability).

Conventions of the embedding:
* Go slices and the linked-list queues (`llq.Queue`) become Lean `List`s;
  `Enqueue` appends at the end, `Values`/`Dequeue` read from the front.
* `time.Now().UnixNano()/1e6` becomes an explicit `now : Int` argument
  (milliseconds).
* A `QueueTask` is modelled by the engine-observable record: its partition
  key, an opaque payload, the boolean its `IsTimeout()` method returns at
  admission time, and the error slot written by `SetError`.
* A Go runtime panic (integer division by zero in `process`) is modelled
  by `Option`, `none` meaning the panic.
* The goroutine pool's `Invoke` is modelled by an oracle
  `submit : Nat → Option QErr` giving the submission outcome per chunk.
* The unsynchronized completion-callback closure bound in `Push` is
  modelled as a small-step interleaving system (`FinishStep`): the
  counter increment is one atomic step (it is under the closure's mutex),
  the `finished == n` comparison plus the send is a separate step, since
  in the source it happens after `mu.Unlock()`.
-/

namespace Batch

/-- Errors a task can receive through `SetError`: the queue's own
`ErrorTimedOut`, or an error returned by `pool.Invoke` (abstracted by a
numeric code). -/
inductive QErr where
  | timedOut : QErr
  | poolErr : Nat → QErr
  deriving DecidableEq, Repr

/-- The `ErrorTimedOut` package-level variable. -/
def ErrorTimedOut : QErr := QErr.timedOut

/-- Engine-observable state of a `QueueTask` (interface in `main.go`):
partition key, payload, the value `IsTimeout()` reports at admission,
and the error slot written by `SetError`. -/
structure QueueTask where
  partition : String
  payload : Nat
  timedOut : Bool
  err : Option QErr
  deriving DecidableEq, Repr

/-- The `IsTimeout` method of the `QueueTask` interface. -/
def QueueTask.IsTimeout (t : QueueTask) : Bool := t.timedOut

/-- The `SetError` method: records the error on the task. -/
def QueueTask.SetError (t : QueueTask) (e : QErr) : QueueTask := { t with err := some e }

/-- `DefaultTaskWaitDuration` (milliseconds), package-level variable. -/
def DefaultTaskWaitDuration : Int := 50

/-- `DefaultQueueConsumeRate`, package-level variable. -/
def DefaultQueueConsumeRate : Nat := 100

/-- `FlagAboutToClose = iota + 1 = 1`. -/
def FlagAboutToClose : Nat := 1

/-- `FlagClosing = 2`. -/
def FlagClosing : Nat := 2

/-- `FlagClosed = 3`. -/
def FlagClosed : Nat := 3

/-- The `partitionQueue` struct: the FIFO `q` and the `firstQueued`
millisecond timestamp. -/
structure partitionQueue where
  q : List QueueTask
  firstQueued : Int
  deriving DecidableEq, Repr

/-- `newPartitionQueue()`. -/
def newPartitionQueue : partitionQueue := { q := [], firstQueued := 0 }

/-- `partitionQueue.maybeFirstTaskQueued`: when `firstQueued == 0`,
stamp it with the current time. -/
def partitionQueue.maybeFirstTaskQueued (pq : partitionQueue) (now : Int) : partitionQueue :=
  if pq.firstQueued = 0 then { pq with firstQueued := now } else pq

/-- `partitionQueue.push`: enqueue at the tail, then
`maybeFirstTaskQueued`. -/
def partitionQueue.push (pq : partitionQueue) (v : QueueTask) (now : Int) : partitionQueue :=
  partitionQueue.maybeFirstTaskQueued { pq with q := pq.q ++ [v] } now

/-- `partitionQueue.reset`: clear the queue and zero `firstQueued`. -/
def partitionQueue.reset (_pq : partitionQueue) : partitionQueue :=
  { q := [], firstQueued := 0 }

/-- `partitionQueue.tasks`: all stored tasks, in FIFO order. -/
def partitionQueue.tasks (pq : partitionQueue) : List QueueTask := pq.q

/-- `partitionQueue.isFirstTaskReady`: compares the elapsed time since
`firstQueued` with `DefaultTaskWaitDuration` (strictly greater). -/
def partitionQueue.isFirstTaskReady (pq : partitionQueue) (now : Int) : Bool :=
  DefaultTaskWaitDuration < now - pq.firstQueued

/-- `partitionQueue.maybePop`: when the size trigger or the age trigger
fires, return all tasks and reset; otherwise return `nil` and keep the
state. Returns the popped tasks together with the post-state. -/
def partitionQueue.maybePop (pq : partitionQueue) (n : Nat) (now : Int) :
    List QueueTask × partitionQueue :=
  if pq.q.length ≥ n ∨ pq.isFirstTaskReady now = true then
    (pq.tasks, pq.reset)
  else
    ([], pq)

/-- Number of batches computed at the top of `MemoryBatchQueue.process`:
`ns := l / batchSize; if ns*batchSize < l { ns += 1 }`. Meaningful only
for `batchSize ≠ 0` (the division panics otherwise; see `process`). -/
def numBatches (l batchSize : Nat) : Nat :=
  let ns := l / batchSize
  if ns * batchSize < l then ns + 1 else ns

/-- The `i`-th chunk taken in `process`'s loop:
`lo := batchSize*i; hi := min (batchSize*(i+1)) l; tasks[lo:hi]`. -/
def chunkAt (tasks : List QueueTask) (batchSize i : Nat) : List QueueTask :=
  let lo := batchSize * i
  let hi := min (batchSize * (i + 1)) tasks.length
  (tasks.take hi).drop lo

/-- The ordered list of chunks `process` submits to the pool. -/
def processChunks (tasks : List QueueTask) (batchSize : Nat) : List (List QueueTask) :=
  (List.range (numBatches tasks.length batchSize)).map (chunkAt tasks batchSize)

/-- Ceiling division, the count of chunks the specification predicts. -/
def ceilDiv (a b : Nat) : Nat := (a + b - 1) / b

/-- `MemoryBatchQueue.process`: splits `tasks` into chunks and submits
each one to the pool; when `pool.Invoke` fails on a chunk, `SetError`
is called on every task of that chunk. `submit i` is the outcome of the
`i`-th `Invoke`. `none` as overall result models the Go runtime panic of
the division `l / batchSize` when `batchSize == 0`. -/
def process (submit : Nat → Option QErr) (tasks : List QueueTask) (batchSize : Nat) :
    Option (List (List QueueTask)) :=
  if batchSize = 0 then none
  else
    some ((processChunks tasks batchSize).enum.map (fun p =>
      match submit p.1 with
      | some e => p.2.map (fun t => QueueTask.SetError t e)
      | none => p.2))

/-- One partition's turn inside `MemoryBatchQueue.iteratePartitions`:
query the batch size provider, `maybePop`, and when tasks were popped,
`process` them. `none` models the runtime panic propagating out of
`process`. -/
def iterateOne (bspGet : String → Nat) (submit : Nat → Option QErr) (k : String)
    (pq : partitionQueue) (now : Int) :
    Option (partitionQueue × List (List QueueTask)) :=
  let size := bspGet k
  let r := pq.maybePop size now
  if r.1.length ≠ 0 then
    match process submit r.1 size with
    | none => none
    | some out => some (r.2, out)
  else
    some (r.2, [])

/-- `MemoryBatchQueue.pushPartitionQueue`: load the partition's queue
(create it on first use) and push the task into it. The `sync.Map` of
partitions is modelled as a function from key to optional queue. -/
def pushPartitionQueue (m : String → Option partitionQueue) (v : QueueTask) (now : Int) :
    String → Option partitionQueue :=
  fun k =>
    if k = v.partition then
      some (((m v.partition).getD newPartitionQueue).push v now)
    else m k

/-- The admission loop of the producer goroutine in
`MemoryBatchQueue.start`, over one drained slice: a timed-out task gets
`SetError(ErrorTimedOut)` and is dropped; any other task is routed into
its partition's queue. Returns the updated partition map and the tasks
as they stand after the loop. -/
def admitTasks (m : String → Option partitionQueue) (ts : List QueueTask) (now : Int) :
    (String → Option partitionQueue) × List QueueTask :=
  match ts with
  | [] => (m, [])
  | t :: rest =>
      if t.IsTimeout then
        let r := admitTasks m rest now
        (r.1, t.SetError ErrorTimedOut :: r.2)
      else
        let r := admitTasks (pushPartitionQueue m t now) rest now
        (r.1, t :: r.2)

/-- Contents of the partition buffer for key `k` (empty when the buffer
was never created). -/
def bufContents (m : String → Option partitionQueue) (k : String) : List QueueTask :=
  ((m k).getD newPartitionQueue).q

/-- The `MemoryBatchQueue` state visible to `Push` and the lifecycle:
the ingress FIFO `q`, the closing `flag`, and the partition map. -/
structure MemoryBatchQueue where
  q : List QueueTask
  flag : Nat
  partitions : String → Option partitionQueue

/-- What `Push` hands back to the caller: a buffered channel already
holding `v` (`immediate v`), or the blocking channel of a submission of
`n` tasks whose completion callbacks were bound (`pending n`). -/
inductive PushResult where
  | immediate : Int → PushResult
  | pending : Nat → PushResult
  deriving DecidableEq, Repr

/-- `MemoryBatchQueue.Push`: short-circuits with a buffered channel
containing 0 when the flag is past `FlagAboutToClose` or `tasks` is
empty; otherwise binds a completion callback to each task and enqueues
them all on the ingress FIFO. -/
def Push (mq : MemoryBatchQueue) (tasks : List QueueTask) : PushResult × MemoryBatchQueue :=
  if mq.flag > FlagAboutToClose ∨ tasks = [] then
    (PushResult.immediate 0, mq)
  else
    (PushResult.pending tasks.length, { mq with q := mq.q ++ tasks })

/-- `MemoryBatchQueue.Close`: `if q.flag == 0 { q.flag = FlagAboutToClose }`. -/
def closeStep (flag : Nat) : Nat :=
  if flag = 0 then FlagAboutToClose else flag

/-- The flag update at the end of one producer cycle:
`if q.flag == FlagAboutToClose && len(tasks) == 0 { q.flag = FlagClosing }`,
where `drainedEmpty` says whether `popN` returned no tasks. -/
def producerFlagStep (flag : Nat) (drainedEmpty : Bool) : Nat :=
  if flag = FlagAboutToClose ∧ drainedEmpty = true then FlagClosing else flag

/-- The flag update and exit decision at the end of one consumer pass:
`if q.flag == FlagClosed { break }; if q.flag == FlagClosing { q.flag = FlagClosed }`.
Returns the new flag and whether the loop exits. -/
def consumerFlagStep (flag : Nat) : Nat × Bool :=
  if flag = FlagClosed then (flag, true)
  else if flag = FlagClosing then (FlagClosed, false)
  else (flag, false)

/-- Observable events of the consumer goroutine: a full
`iteratePartitions` pass performed while the flag holds the recorded
value, and loop exit. -/
inductive CEvent where
  | flush : Nat → CEvent
  | exit : CEvent
  deriving DecidableEq, Repr

/-- The consumer goroutine's loop unrolled for `fuel` passes (flag not
touched by other threads): each pass flushes, then applies
`consumerFlagStep`. -/
def consumerRun : Nat → Nat → List CEvent
  | 0, _ => []
  | Nat.succ fuel, flag =>
      let p := consumerFlagStep flag
      if p.2 then [CEvent.flush flag, CEvent.exit]
      else CEvent.flush flag :: consumerRun fuel p.1

/-- Who performs a flag update: `Close()`, the producer's cycle end
(with its observation of the drained slice), or the consumer's pass
end. -/
inductive SysLabel where
  | close : SysLabel
  | producer : Bool → SysLabel
  | consumer : SysLabel
  deriving DecidableEq, Repr

/-- The flag after one update by the given actor. -/
def sysStep (flag : Nat) : SysLabel → Nat
  | SysLabel.close => closeStep flag
  | SysLabel.producer e => producerFlagStep flag e
  | SysLabel.consumer => (consumerFlagStep flag).1

/-- State of the completion-callback system bound by `Push` for one
submission: per-callback program counter (0 = before the increment,
1 = after `mu.Unlock()` but before the `finished == n` comparison,
2 = done), the shared `finished` counter, and the number of sends
performed on `finishC`. -/
structure FinishState where
  pc : List Nat
  finished : Nat
  sends : Nat
  deriving DecidableEq, Repr

/-- Initial state for a submission of `n` tasks. -/
def initFinish (n : Nat) : FinishState :=
  { pc := List.replicate n 0, finished := 0, sends := 0 }

/-- One atomic step of some completion callback. `inc` is the locked
section `mu.Lock(); finished++; mu.Unlock()`. The comparison
`finished == n` runs after the unlock, so it is a separate step:
`send` when the comparison succeeds (performing `finishC <- ...`),
`skip` when it fails. -/
inductive FinishStep (n : Nat) : FinishState → FinishState → Prop
  | inc (s : FinishState) (i : Nat) (h : s.pc[i]? = some 0) :
      FinishStep n s { pc := s.pc.set i 1, finished := s.finished + 1, sends := s.sends }
  | send (s : FinishState) (i : Nat) (h : s.pc[i]? = some 1) (hn : s.finished = n) :
      FinishStep n s { pc := s.pc.set i 2, finished := s.finished, sends := s.sends + 1 }
  | skip (s : FinishState) (i : Nat) (h : s.pc[i]? = some 1) (hn : s.finished ≠ n) :
      FinishStep n s { pc := s.pc.set i 2, finished := s.finished, sends := s.sends }

/-- Reachability under interleaved callback steps. -/
def FinishReach (n : Nat) : FinishState → FinishState → Prop :=
  Relation.ReflTransGen (FinishStep n)

/-- Operations applied to one `partitionQueue` over its lifetime: the
producer pushing an admitted task, or the consumer calling `maybePop`. -/
inductive PQOp where
  | push : QueueTask → Int → PQOp
  | flush : Nat → Int → PQOp

/-- Run a sequence of operations on a partition buffer, collecting the
tasks returned by the `maybePop` calls in order. -/
def runOps : partitionQueue → List PQOp → partitionQueue × List QueueTask
  | pq, [] => (pq, [])
  | pq, PQOp.push v now :: ops => runOps (pq.push v now) ops
  | pq, PQOp.flush n now :: ops =>
      let r := pq.maybePop n now
      let rest := runOps r.2 ops
      (rest.1, r.1 ++ rest.2)

/-- The tasks pushed by a sequence of operations, in order. -/
def pushedTasks : List PQOp → List QueueTask
  | [] => []
  | PQOp.push v _ :: ops => v :: pushedTasks ops
  | PQOp.flush _ _ :: ops => pushedTasks ops

/-- The invariant of claim C9: the `firstQueued` stamp is zero exactly
when the FIFO is empty. -/
def pqInv (pq : partitionQueue) : Prop :=
  pq.firstQueued = 0 ↔ pq.q = []

/-- A sample task used by concrete witnesses. -/
def sampleTask : QueueTask :=
  { partition := "p", payload := 0, timedOut := false, err := none }

/-- Twenty tasks on one partition, as in the spec's 20-at-batch-size-8
example. -/
def sampleTasks : List QueueTask :=
  (List.range 20).map (fun i => { sampleTask with payload := i })

/-- A partition buffer holding one task, stamped at 42 ms. -/
def onePQ : partitionQueue := { q := [sampleTask], firstQueued := 42 }

/-- A closed (flag = `FlagClosing`) queue with empty buffers. -/
def closingMBQ : MemoryBatchQueue :=
  { q := [], flag := FlagClosing, partitions := fun _ => none }

/-- The state witnessing a duplicate send: both callbacks ran to
completion and the channel was sent to twice. -/
def dupState : FinishState := { pc := [2, 2], finished := 2, sends := 2 }

/-- A pool whose first `Invoke` fails with error code 7 and accepts
everything afterwards. -/
def failSubmit : Nat → Option QErr :=
  fun i => if i = 0 then some (QErr.poolErr 7) else none

/-!
Helper lemmas shared by the claim theorems.
-/

/-- Pushing leaves the FIFO appended at the tail, whatever happens to
the timestamp. -/
theorem push_q (pq : partitionQueue) (v : QueueTask) (now : Int) :
    (pq.push v now).q = pq.q ++ [v] := by
  unfold partitionQueue.push partitionQueue.maybeFirstTaskQueued
  split <;> rfl

/-- `maybePop` either flushes everything or is a no-op. -/
theorem maybePop_cases (pq : partitionQueue) (n : Nat) (now : Int) :
    pq.maybePop n now = (pq.q, pq.reset) ∨ pq.maybePop n now = ([], pq) := by
  unfold partitionQueue.maybePop
  split
  · exact Or.inl rfl
  · exact Or.inr rfl

/-- The slice `tasks[batchSize*i : min (batchSize*(i+1)) l]` equals
dropping `batchSize*i` then taking `batchSize`. -/
theorem chunkAt_eq_drop_take (tasks : List QueueTask) (b i : Nat) :
    chunkAt tasks b i = (tasks.drop (b * i)).take b := by
  unfold chunkAt
  rw [List.drop_take]
  rcases le_or_lt (b * (i + 1)) tasks.length with h | h
  · rw [min_eq_left h]
    congr 1
    rw [Nat.mul_succ]
    omega
  · rw [min_eq_right (le_of_lt h)]
    have hlen : (tasks.drop (b * i)).length = tasks.length - b * i :=
      List.length_drop ..
    have hmul : b * (i + 1) = b * i + b := Nat.mul_succ ..
    rw [List.take_of_length_le (by omega),
      List.take_of_length_le (by rw [hlen]; omega)]

/-- The chunk count covers the whole list. -/
theorem length_le_mul_numBatches (l b : Nat) (hb : 1 ≤ b) :
    l ≤ b * numBatches l b := by
  simp only [numBatches]
  split
  · have h2 : b * (l / b) + l % b = l := Nat.div_add_mod l b
    have h3 : l % b < b := Nat.mod_lt _ (by omega)
    have h4 : b * (l / b + 1) = b * (l / b) + b := Nat.mul_succ ..
    omega
  · rename_i h
    have h2 : b * (l / b) = l / b * b := Nat.mul_comm ..
    omega

/-- Every chunk index starts strictly inside the list. -/
theorem mul_lt_of_lt_numBatches (l b i : Nat) (hb : 1 ≤ b)
    (hi : i < numBatches l b) : b * i < l := by
  simp only [numBatches] at hi
  split at hi
  · rename_i h
    have h1 : b * i ≤ b * (l / b) := Nat.mul_le_mul (Nat.le_refl b) (by omega)
    have h2 : b * (l / b) = l / b * b := Nat.mul_comm ..
    omega
  · rename_i h
    have h1 : b * (i + 1) ≤ b * (l / b) := Nat.mul_le_mul (Nat.le_refl b) (by omega)
    have h2 : l / b * b ≤ l := Nat.div_mul_le_self ..
    have h3 : b * (l / b) = l / b * b := Nat.mul_comm ..
    have h4 : b * (i + 1) = b * i + b := Nat.mul_succ ..
    omega

/-- The loop's batch count is exactly ceiling division. -/
theorem numBatches_eq_ceilDiv (l b : Nat) (hb : 1 ≤ b) :
    numBatches l b = ceilDiv l b := by
  have h2 : b * (l / b) + l % b = l := Nat.div_add_mod l b
  have h3 : l % b < b := Nat.mod_lt _ (by omega)
  have hc : b * (l / b) = l / b * b := Nat.mul_comm ..
  simp only [numBatches, ceilDiv]
  have h5 : (l / b + 1) * b = l / b * b + b := Nat.succ_mul ..
  rcases Nat.eq_zero_or_pos (l % b) with hr | hr
  · have hlt : ¬ l / b * b < l := by omega
    rw [if_neg hlt]
    have he : (l + b - 1) / b = l / b :=
      Nat.div_eq_of_lt_le (by omega) (by omega)
    omega
  · have hlt : l / b * b < l := by omega
    rw [if_pos hlt]
    have h6 : (l / b + 1 + 1) * b = (l / b + 1) * b + b := Nat.succ_mul ..
    have he : (l + b - 1) / b = l / b + 1 :=
      Nat.div_eq_of_lt_le (by omega) (by omega)
    omega

/-- Concatenating the chunks of width `b` recovers the list. -/
theorem flatten_range_take_drop (b : Nat) (hb : 1 ≤ b) :
    ∀ (ns : Nat) (xs : List QueueTask), xs.length ≤ b * ns →
      ((List.range ns).map (fun i => (xs.drop (b * i)).take b)).flatten = xs := by
  intro ns
  induction ns with
  | zero =>
      intro xs h
      simp only [Nat.mul_zero, Nat.le_zero] at h
      simp [List.length_eq_zero.mp h]
  | succ ns ih =>
      intro xs h
      rw [List.range_succ_eq_map]
      simp only [List.map_cons, List.map_map, List.flatten_cons, Nat.mul_zero,
        List.drop_zero]
      have hcomp : ((fun i => (xs.drop (b * i)).take b) ∘ Nat.succ)
          = fun i => ((xs.drop b).drop (b * i)).take b := by
        funext i
        show (xs.drop (b * (i + 1))).take b = ((xs.drop b).drop (b * i)).take b
        rw [List.drop_drop]
        congr 2
        rw [Nat.mul_succ]
        omega
      rw [hcomp, ih (xs.drop b) ?_, List.take_append_drop]
      have hlen : (xs.drop b).length = xs.length - b := List.length_drop ..
      have h4 : b * (ns + 1) = b * ns + b := Nat.mul_succ ..
      omega

/-- C2: `maybePop n` returns and resets all buffered tasks exactly when
the buffered count is at least `n` or the buffer is non-empty and the
elapsed time since its oldest task's enqueue exceeds
`DefaultTaskWaitDuration`; in every other case it returns nothing and
leaves the FIFO and the timestamp unchanged. (On an empty buffer the
age comparison against the zero timestamp may also fire, but then the
returned list is empty and the reset state coincides with the
unchanged state, so the observable behaviour is exactly the one
stated.) -/
theorem C2_maybePop_flush (pq : partitionQueue) (n : Nat) (now : Int)
    (hinv : pqInv pq) :
    pq.maybePop n now =
      if pq.q.length ≥ n ∨ (pq.q ≠ [] ∧ DefaultTaskWaitDuration < now - pq.firstQueued)
      then (pq.q, pq.reset)
      else ([], pq) := by
  by_cases hq : pq.q = []
  · obtain ⟨q, fq⟩ := pq
    simp only at hq
    subst hq
    have hfq : fq = 0 := hinv.mpr rfl
    subst hfq
    unfold partitionQueue.maybePop
    split <;> split <;> rfl
  · have hcond : (pq.q.length ≥ n ∨ pq.isFirstTaskReady now = true)
        ↔ (pq.q.length ≥ n
            ∨ (pq.q ≠ [] ∧ DefaultTaskWaitDuration < now - pq.firstQueued)) := by
      simp [partitionQueue.isFirstTaskReady, and_iff_right hq]
    unfold partitionQueue.maybePop
    rw [if_congr hcond rfl rfl]
    split <;> rfl

/-- C2 witness: a buffer holding one task stamped at 42 ms, polled with
`n = 3` at 100 ms, flushes through the age trigger. -/
theorem C2_maybePop_flush_witness :
    pqInv onePQ ∧
    onePQ.maybePop 3 100 =
      (if onePQ.q.length ≥ 3
          ∨ (onePQ.q ≠ [] ∧ DefaultTaskWaitDuration < 100 - onePQ.firstQueued)
       then (onePQ.q, onePQ.reset)
       else ([], onePQ)) :=
  ⟨by unfold pqInv; decide, C2_maybePop_flush onePQ 3 100 (by unfold pqInv; decide)⟩

/-- C3: for a non-empty task list and `batchSize ≥ 1`, `process` splits
the list into `ceil(l / batchSize)` contiguous chunks in order, each of
size at most `batchSize`, whose concatenation is the original list; 20
tasks at batch size 8 give chunk sizes 8, 8, 4 in submission order. -/
theorem C3_process_chunking (tasks : List QueueTask) (b : Nat) (hb : 1 ≤ b)
    (hne : tasks ≠ []) :
    (processChunks tasks b).length = ceilDiv tasks.length b ∧
    (∀ c ∈ processChunks tasks b, c.length ≤ b) ∧
    (processChunks tasks b).flatten = tasks ∧
    (processChunks sampleTasks 8).map List.length = [8, 8, 4] := by
  refine ⟨?_, ?_, ?_, by decide⟩
  · simp [processChunks, numBatches_eq_ceilDiv tasks.length b hb]
  · intro c hc
    simp only [processChunks, List.mem_map] at hc
    obtain ⟨i, _, rfl⟩ := hc
    rw [chunkAt_eq_drop_take]
    exact List.length_take_le ..
  · have hfun : chunkAt tasks b = fun i => (tasks.drop (b * i)).take b :=
      funext (chunkAt_eq_drop_take tasks b)
    simp only [processChunks, hfun]
    exact flatten_range_take_drop b hb _ tasks
      (length_le_mul_numBatches tasks.length b hb)

/-- C3 witness: the 20-task sample at batch size 8. -/
theorem C3_process_chunking_witness :
    (processChunks sampleTasks 8).length = ceilDiv sampleTasks.length 8 ∧
    (∀ c ∈ processChunks sampleTasks 8, c.length ≤ 8) ∧
    (processChunks sampleTasks 8).flatten = sampleTasks ∧
    (processChunks sampleTasks 8).map List.length = [8, 8, 4] :=
  C3_process_chunking sampleTasks 8 (by decide) (by decide)

/-- C6: `Push` on an empty task list, or when the flag is strictly past
`FlagAboutToClose`, returns the pre-filled channel holding 0 and leaves
the whole queue state (ingress FIFO, partition buffers, flag)
unchanged. -/
theorem C6_push_shortcircuit (mq : MemoryBatchQueue) (tasks : List QueueTask)
    (h : tasks = [] ∨ FlagAboutToClose < mq.flag) :
    Push mq tasks = (PushResult.immediate 0, mq) := by
  unfold Push
  rcases h with h | h
  · rw [if_pos (Or.inr h)]
  · rw [if_pos (Or.inl h)]

/-- C6 witness: pushing no tasks into a closing queue. -/
theorem C6_push_shortcircuit_witness :
    Push closingMBQ [] = (PushResult.immediate 0, closingMBQ) :=
  C6_push_shortcircuit closingMBQ [] (Or.inl rfl)

/-- C9: the invariant `firstQueued = 0 ↔ FIFO empty` is preserved by
`push` (for a nonzero clock) and by `maybePop`; `push` stamps the
timestamp exactly on the empty-to-non-empty transition and leaves it
unchanged otherwise; `maybePop` either empties the buffer and zeroes
the timestamp together, or changes nothing. -/
theorem C9_firstQueued_invariant (pq : partitionQueue) (hinv : pqInv pq) :
    (∀ (v : QueueTask) (now : Int), now ≠ 0 → pqInv (pq.push v now)) ∧
    (∀ (v : QueueTask) (now : Int), pq.q ≠ [] →
        (pq.push v now).firstQueued = pq.firstQueued) ∧
    (∀ (v : QueueTask) (now : Int), pq.q = [] →
        (pq.push v now).firstQueued = now) ∧
    (∀ (n : Nat) (now : Int), pqInv (pq.maybePop n now).2) ∧
    (∀ (n : Nat) (now : Int),
        pq.maybePop n now = (pq.q, pq.reset) ∨ pq.maybePop n now = ([], pq)) := by
  refine ⟨?_, ?_, ?_, ?_, fun n now => maybePop_cases pq n now⟩
  · intro v now hnow
    unfold partitionQueue.push partitionQueue.maybeFirstTaskQueued pqInv
    split
    · simpa using hnow
    · rename_i hfq
      simp only
      constructor
      · intro h
        exact absurd h hfq
      · intro h
        exact absurd h (List.append_ne_nil_of_right_ne_nil pq.q (by simp))
  · intro v now hq
    have hfq : pq.firstQueued ≠ 0 := fun h => hq (hinv.mp h)
    unfold partitionQueue.push partitionQueue.maybeFirstTaskQueued
    rw [if_neg hfq]
  · intro v now hq
    have hfq : pq.firstQueued = 0 := hinv.mpr hq
    unfold partitionQueue.push partitionQueue.maybeFirstTaskQueued
    rw [if_pos hfq]
  · intro n now
    rcases maybePop_cases pq n now with h | h <;> rw [h]
    · simp [partitionQueue.reset, pqInv]
    · exact hinv

/-- C9 witness: the invariant holds after pushing into the one-task
buffer at time 100. -/
theorem C9_firstQueued_invariant_witness :
    pqInv (onePQ.push sampleTask 100) :=
  (C9_firstQueued_invariant onePQ (by unfold pqInv; decide)).1 sampleTask 100 (by decide)

/-- Routing one task into the partition map appends it to exactly its
partition's buffer. -/
theorem bufContents_pushPartitionQueue (m : String → Option partitionQueue)
    (t : QueueTask) (now : Int) (k : String) :
    bufContents (pushPartitionQueue m t now) k =
      if k = t.partition then bufContents m k ++ [t] else bufContents m k := by
  unfold bufContents pushPartitionQueue
  split
  · rename_i h
    subst h
    simp [push_q]
  · rfl

/-- C5: for every drained slice, a task whose deadline has passed
receives exactly `ErrorTimedOut` via `SetError` and is appended to no
partition buffer; every other task is appended, unfailed, to the
buffer of its own partition key, in drain order. -/
theorem C5_admission_filter (ts : List QueueTask) :
    ∀ (m : String → Option partitionQueue) (now : Int) (k : String),
      bufContents (admitTasks m ts now).1 k
        = bufContents m k ++ ts.filter (fun t => !t.IsTimeout && t.partition == k) ∧
      (admitTasks m ts now).2
        = ts.map (fun t => if t.IsTimeout then t.SetError ErrorTimedOut else t) := by
  induction ts with
  | nil =>
      intro m now k
      simp [admitTasks]
  | cons t rest ih =>
      intro m now k
      by_cases ht : t.IsTimeout
      · simp only [admitTasks, ht, if_true, List.filter_cons, List.map_cons,
          Bool.not_true, Bool.false_and, Bool.false_eq_true, if_false]
        exact ⟨(ih m now k).1, by rw [(ih m now k).2]⟩
      · simp only [admitTasks, ht, Bool.false_eq_true, if_false, List.filter_cons,
          List.map_cons, Bool.not_false, Bool.true_and]
        refine ⟨?_, by rw [(ih (pushPartitionQueue m t now) now k).2]⟩
        rw [(ih (pushPartitionQueue m t now) now k).1,
          bufContents_pushPartitionQueue]
        by_cases hk : k = t.partition
        · rw [if_pos hk, if_pos (by simp [hk]), List.append_assoc]
          rfl
        · rw [if_neg hk,
            if_neg (by simp only [beq_iff_eq]
                       exact fun (h : t.partition = k) => hk h.symm)]

/-- C7: within one partition, the concatenation of the task lists
returned by successive `maybePop` calls, followed by what is still
buffered, is exactly the FIFO order in which tasks were pushed; and
within a dispatch, concatenating the chunks in submission order gives
back the flushed list. -/
theorem C7_partition_fifo :
    (∀ (ops : List PQOp) (pq : partitionQueue),
        (runOps pq ops).2 ++ (runOps pq ops).1.q = pq.q ++ pushedTasks ops) ∧
    (∀ (tasks : List QueueTask) (b : Nat), 1 ≤ b →
        (processChunks tasks b).flatten = tasks) := by
  constructor
  · intro ops
    induction ops with
    | nil =>
        intro pq
        simp [runOps, pushedTasks]
    | cons op ops ih =>
        intro pq
        cases op with
        | push v now =>
            simp only [runOps, pushedTasks]
            rw [ih (pq.push v now), push_q, List.append_assoc]
            rfl
        | flush n now =>
            simp only [runOps, pushedTasks]
            rcases maybePop_cases pq n now with h | h <;> rw [h]
            · simp only [List.append_assoc]
              rw [ih pq.reset]
              simp [partitionQueue.reset]
            · simp only [List.nil_append]
              exact ih pq
  · intro tasks b hb
    have hfun : chunkAt tasks b = fun i => (tasks.drop (b * i)).take b :=
      funext (chunkAt_eq_drop_take tasks b)
    simp only [processChunks, hfun]
    exact flatten_range_take_drop b hb _ tasks
      (length_le_mul_numBatches tasks.length b hb)

/-- C7 witness: a concrete push/flush interleaving and the 20-task
chunking both preserve FIFO order. -/
theorem C7_partition_fifo_witness :
    ((runOps newPartitionQueue
        [PQOp.push sampleTask 1, PQOp.flush 1 2, PQOp.push sampleTask 3]).2
      ++ (runOps newPartitionQueue
        [PQOp.push sampleTask 1, PQOp.flush 1 2, PQOp.push sampleTask 3]).1.q
      = newPartitionQueue.q ++ pushedTasks
        [PQOp.push sampleTask 1, PQOp.flush 1 2, PQOp.push sampleTask 3]) ∧
    (processChunks sampleTasks 8).flatten = sampleTasks :=
  ⟨C7_partition_fifo.1 _ newPartitionQueue,
   C7_partition_fifo.2 sampleTasks 8 (by decide)⟩

/-- C8: `process` submits each chunk exactly once; when the pool
rejects chunk `i` with error `e`, every task of that chunk — and only
that chunk — ends with `e` in its error slot, while a chunk whose
submission succeeds passes through unchanged. -/
theorem C8_submit_failfast (submit : Nat → Option QErr) (tasks : List QueueTask)
    (b : Nat) (hb : 1 ≤ b) :
    ∃ out, process submit tasks b = some out ∧
      out.length = numBatches tasks.length b ∧
      ∀ (i : Nat) (hi : i < out.length),
        (∀ e : QErr, submit i = some e →
          ∀ t ∈ out.get ⟨i, hi⟩, t.err = some e) ∧
        (submit i = none → out.get ⟨i, hi⟩ = chunkAt tasks b i) := by
  refine ⟨(processChunks tasks b).enum.map (fun p =>
      match submit p.1 with
      | some e => p.2.map (fun t => QueueTask.SetError t e)
      | none => p.2), ?_, ?_, ?_⟩
  · unfold process
    rw [if_neg (by omega)]
  · simp [processChunks]
  · intro i hi
    have hi2 : i < (processChunks tasks b).length := by
      simpa using hi
    constructor
    · intro e he t htmem
      rw [List.get_eq_getElem] at htmem
      simp only [List.getElem_map, List.getElem_enum, he] at htmem
      simp only [List.mem_map] at htmem
      obtain ⟨t0, _, rfl⟩ := htmem
      rfl
    · intro he
      rw [List.get_eq_getElem]
      simp only [List.getElem_map, List.getElem_enum, he]
      simp [processChunks]

/-- C8 witness: three-chunk dispatch where only the first submission
fails. -/
theorem C8_submit_failfast_witness :
    ∃ out, process failSubmit sampleTasks 8 = some out ∧
      out.length = numBatches sampleTasks.length 8 ∧
      ∀ (i : Nat) (hi : i < out.length),
        (∀ e : QErr, failSubmit i = some e →
          ∀ t ∈ out.get ⟨i, hi⟩, t.err = some e) ∧
        (failSubmit i = none → out.get ⟨i, hi⟩ = chunkAt sampleTasks 8 i) :=
  C8_submit_failfast failSubmit sampleTasks 8 (by decide)

/-- C10: `process` divides by `batchSize` with no guard, so it is total
exactly under `batchSize ≥ 1` (every chunk's bounds then lie inside the
list); with `batchSize = 0` the division panics, and the panic is
reachable through the flush scheduler when the batch size provider
returns 0 for a partition holding a task. -/
theorem C10_batchsize_guard (submit : Nat → Option QErr) :
    (∀ (tasks : List QueueTask) (b : Nat), 1 ≤ b →
        (process submit tasks b).isSome = true) ∧
    (∀ (tasks : List QueueTask) (b i : Nat), 1 ≤ b → i < numBatches tasks.length b →
        b * i < tasks.length ∧ min (b * (i + 1)) tasks.length ≤ tasks.length) ∧
    (∀ (tasks : List QueueTask), process submit tasks 0 = none) ∧
    iterateOne (fun _ => 0) submit "p" onePQ 100 = none := by
  refine ⟨?_, ?_, fun tasks => rfl, rfl⟩
  · intro tasks b hb
    unfold process
    rw [if_neg (by omega)]
    rfl
  · intro tasks b i hb hi
    exact ⟨mul_lt_of_lt_numBatches tasks.length b i hb hi, min_le_right ..⟩

/-- C10 witness: batch size 8 is safe on the sample; batch size 0 from
the provider panics on the one-task partition. -/
theorem C10_batchsize_guard_witness :
    (process (fun _ => none) sampleTasks 8).isSome = true ∧
    8 * 1 < sampleTasks.length ∧
    iterateOne (fun _ => 0) (fun _ => none) "p" onePQ 100 = none := by
  have h := C10_batchsize_guard (fun _ => none)
  exact ⟨h.1 sampleTasks 8 (by decide),
    (h.2.1 sampleTasks 8 1 (by decide) (by decide)).1, h.2.2.2⟩

/-- C1: the completion-callback closure evaluates `finished == n` after
`mu.Unlock()`, so with two tasks the interleaving "callback 0
increments, callback 1 increments, callback 1 checks and sends,
callback 0 checks and sends" is reachable and performs two sends on the
channel — refuting the exactly-one-send invariant and the assertion
that the equality check happens under the same mutex as the
increment. -/
theorem C1_duplicate_send :
    FinishReach 2 (initFinish 2) dupState ∧ dupState.sends = 2 := by
  have h1 : FinishStep 2 (initFinish 2)
      { pc := [1, 0], finished := 1, sends := 0 } :=
    FinishStep.inc _ 0 rfl
  have h2 : FinishStep 2 { pc := [1, 0], finished := 1, sends := 0 }
      { pc := [1, 1], finished := 2, sends := 0 } :=
    FinishStep.inc _ 1 rfl
  have h3 : FinishStep 2 { pc := [1, 1], finished := 2, sends := 0 }
      { pc := [1, 2], finished := 2, sends := 1 } :=
    FinishStep.send _ 1 rfl rfl
  have h4 : FinishStep 2 { pc := [1, 2], finished := 2, sends := 1 }
      dupState :=
    FinishStep.send _ 0 rfl rfl
  exact ⟨Relation.ReflTransGen.head h1 (Relation.ReflTransGen.head h2
    (Relation.ReflTransGen.head h3 (Relation.ReflTransGen.single h4))), rfl⟩

/-- C4 counterexample: run from `FlagClosing`, the consumer sets
`FlagClosed` at the end of the pass that observes `FlagClosing` and
only then performs its final flush iteration — the trace contains a
flush at `FlagClosed`, not the flush-before-`Closed` the claim
states. -/
theorem C4_flush_after_closed :
    consumerRun 3 FlagClosing
      = [CEvent.flush FlagClosing, CEvent.flush FlagClosed, CEvent.exit] ∧
    consumerRun 3 FlagClosing
      ≠ [CEvent.flush FlagClosing, CEvent.flush FlagClosing, CEvent.exit] := by
  constructor
  · rfl
  · decide

/-- C4 (amended): the flag only ever advances along
Open → AboutToClose → Closing → Closed, Closed is terminal, `Close()`
moves Open to AboutToClose and is a no-op later, only the producer
(observing AboutToClose with an empty drain) advances to Closing, only
the consumer (observing Closing) advances to Closed — and the
consumer, upon observing Closing at the end of a pass, sets Closed
immediately and then performs exactly one more full flush iteration
before exiting its loop. -/
theorem C4_lifecycle (f : Nat) (lab : SysLabel) :
    (sysStep f lab = f
      ∨ (f = 0 ∧ sysStep f lab = FlagAboutToClose)
      ∨ (f = FlagAboutToClose ∧ sysStep f lab = FlagClosing)
      ∨ (f = FlagClosing ∧ sysStep f lab = FlagClosed)) ∧
    (f = FlagClosed → sysStep f lab = FlagClosed) ∧
    (closeStep 0 = FlagAboutToClose) ∧
    (f ≠ 0 → closeStep f = f) ∧
    (f ≠ FlagClosing → sysStep f lab = FlagClosing →
      lab = SysLabel.producer true ∧ f = FlagAboutToClose) ∧
    (f ≠ FlagClosed → sysStep f lab = FlagClosed →
      lab = SysLabel.consumer ∧ f = FlagClosing) ∧
    consumerRun 3 FlagClosing
      = [CEvent.flush FlagClosing, CEvent.flush FlagClosed, CEvent.exit] := by
  refine ⟨?_, ?_, rfl, ?_, ?_, ?_, rfl⟩
  · rcases lab with _ | e | _ <;>
      simp only [sysStep, closeStep, producerFlagStep, consumerFlagStep,
        FlagAboutToClose, FlagClosing, FlagClosed] <;>
      split_ifs <;> omega
  · intro hf
    subst hf
    rcases lab with _ | e | _ <;>
      simp [sysStep, closeStep, producerFlagStep, consumerFlagStep,
        FlagAboutToClose, FlagClosing, FlagClosed]
  · intro hf
    simp [closeStep, hf]
  · intro hne hstep
    simp only [FlagAboutToClose, FlagClosing, FlagClosed] at hne hstep ⊢
    rcases lab with _ | e | _ <;>
      simp only [sysStep, closeStep, producerFlagStep, consumerFlagStep,
        FlagAboutToClose, FlagClosing, FlagClosed] at hstep <;>
      split_ifs at hstep <;> simp_all
  · intro hne hstep
    simp only [FlagAboutToClose, FlagClosing, FlagClosed] at hne hstep ⊢
    rcases lab with _ | e | _ <;>
      simp only [sysStep, closeStep, producerFlagStep, consumerFlagStep,
        FlagAboutToClose, FlagClosing, FlagClosed] at hstep <;>
      split_ifs at hstep <;> simp_all

/-- C4 witness: the producer really is the actor taking
AboutToClose to Closing on an empty drain. -/
theorem C4_lifecycle_witness :
    SysLabel.producer true = SysLabel.producer true
      ∧ FlagAboutToClose = FlagAboutToClose :=
  (C4_lifecycle FlagAboutToClose (SysLabel.producer true)).2.2.2.2.1
    (by decide) (by decide)

end Batch
